import Mathlib

/-!
Shallow embedding of the go-semver package (`semver.go`).

Conventions of the embedding:
* Go `int` is 64-bit on the reference platform; arithmetic here never wraps
  (the only numeric entry point, `strconv.Atoi`, reports an error instead of
  overflowing), so fields are modelled as `Int` and `Atoi` as a partial map
  into the 64-bit range.
* Go strings are byte sequences holding UTF-8; the parser iterates over runes
  and the comparator compares strings byte-lexicographically.  Code points are
  order-isomorphic to their UTF-8 encodings, so `List Char` with code-point
  order is a faithful model; byte *lengths* are recovered with the UTF-8 size
  of each code point.
* `(SemVer, error)` results are modelled with `Except`.
-/

namespace semver

/-- The single error value `ErrInvalidSemVerSyntax` (name shortened). -/
inductive Err where
  | invalidSemVer
deriving DecidableEq, Repr

/-- The `SemVer` struct: `Major`, `Minor`, `Patch` are Go `int`,
`PreRelease` and `BuildMetadata` are Go strings. -/
structure SemVer where
  Major : Int
  Minor : Int
  Patch : Int
  PreRelease : String
  BuildMetadata : String
deriving DecidableEq, Repr

/-- `cmp.Compare` on ordered values, instantiated at `Int`:
-1 when `a < b`, 0 when equal, +1 when `a > b`. -/
def intCmp (a b : Int) : Int :=
  if a < b then -1 else if a = b then 0 else 1

/-- ASCII decimal digit test ('0'..'9'), as `strconv` classifies base-10 digits. -/
def isDigit (c : Char) : Bool :=
  48 ≤ c.toNat && c.toNat ≤ 57

/-- Numeric value of a decimal digit character. -/
def digitVal (c : Char) : Nat := c.toNat - 48

/-- Value of a digit string read left to right (the accumulation
`strconv.ParseUint` performs, without its range cut-off). -/
def digitsVal (cs : List Char) : Nat :=
  cs.foldl (fun a c => 10 * a + digitVal c) 0

/-- Largest Go `int`: 2^63 - 1. -/
def maxGoInt : Nat := 9223372036854775807

/-- `strconv.Atoi` (= `ParseInt(s, 10, 0)` with 64-bit `int`): an optional
sign, then a non-empty run of decimal digits, rejected when empty, when a
non-digit appears, or when the value leaves the `int` range. -/
def atoiL (cs : List Char) : Option Int :=
  match cs with
  | [] => none
  | c :: rest =>
    let (neg, ds) :=
      if c = '+' then (false, rest)
      else if c = '-' then (true, rest)
      else (false, c :: rest)
    if ds.isEmpty then none
    else if !ds.all isDigit then none
    else
      let n := digitsVal ds
      if neg then
        if n ≤ maxGoInt + 1 then some (-(n : Int)) else none
      else
        if n ≤ maxGoInt then some (n : Int) else none

/-- `strconv.Atoi` on a Go string. -/
def atoi (s : String) : Option Int := atoiL s.data

/-- `mayParseDigit`: `strconv.Atoi` with its success flag. -/
def mayParseDigit (s : String) : Option Int := atoi s

/-- `strings.Split(s, ".")` at the rune level: the dot is ASCII, so byte
splitting and rune splitting agree. Splitting the empty string yields `[[]]`,
as in Go. -/
def splitDots : List Char → List (List Char)
  | [] => [[]]
  | c :: rest =>
    match splitDots rest with
    | [] => [[]]
    | g :: gs => if c = '.' then [] :: g :: gs else (c :: g) :: gs

/-- Byte length of a rune when encoded in UTF-8 (what Go `len` counts). -/
def runeUtf8Size (c : Char) : Nat :=
  if c.toNat < 128 then 1
  else if c.toNat < 2048 then 2
  else if c.toNat < 65536 then 3
  else 4

/-- Go `len` of a string: the number of bytes of its UTF-8 encoding. -/
def byteLen (s : String) : Nat :=
  (s.data.map runeUtf8Size).sum

/-- Go `cmp.Compare` on strings: byte-lexicographic three-way comparison,
expressed on the code-point sequences (order-isomorphic to the byte order). -/
def strCmpL : List Char → List Char → Int
  | [], [] => 0
  | [], _ :: _ => -1
  | _ :: _, [] => 1
  | a :: as, b :: bs =>
    if a.toNat < b.toNat then -1
    else if b.toNat < a.toNat then 1
    else strCmpL as bs

/-- The `for i := range min(...)` loop of `comparePreRelease`: walk the two
identifier lists in lock-step, returning the first non-equal identifier-level
result (`some r`) or `none` when the shorter list runs out with all compared
positions equal. -/
def cmpIdentLoop : List (List Char) → List (List Char) → Option Int
  | [], _ => none
  | _ :: _, [] => none
  | a :: as, b :: bs =>
    match atoiL a, atoiL b with
    | some x, some y =>
      if x = y then cmpIdentLoop as bs else some (intCmp x y)
    | some _, none => some (-1)
    | none, some _ => some 1
    | none, none =>
      let c := strCmpL a b
      if c = 0 then cmpIdentLoop as bs else some c

namespace SemVer

/-- `IsPreRelease`. -/
def IsPreRelease (s : SemVer) : Bool :=
  byteLen s.PreRelease ≠ 0

/-- `comparePreRelease`: empty-vs-empty rules, then the identifier loop, then
the tie-break `cmp.Compare(thisLen, otherLen)` on the byte lengths of the two
`PreRelease` strings. -/
def comparePreRelease (s o : SemVer) : Int :=
  let thisLen := byteLen s.PreRelease
  let otherLen := byteLen o.PreRelease
  if thisLen = 0 ∨ otherLen = 0 then
    if thisLen = 0 ∧ otherLen = 0 then 0
    else if thisLen = 0 then 1
    else -1
  else
    match cmpIdentLoop (splitDots s.PreRelease.data) (splitDots o.PreRelease.data) with
    | some r => r
    | none => intCmp (thisLen : Int) (otherLen : Int)

/-- `generateCompareToOtherResult`: the four-slot comparison vector. -/
def generateCompareToOtherResult (s o : SemVer) : List Int :=
  [intCmp s.Major o.Major, intCmp s.Minor o.Minor, intCmp s.Patch o.Patch,
   comparePreRelease s o]

/-- The scan all four predicates and `Compare` share: first non-zero entry,
0 when every entry is zero. -/
def firstNonZero : List Int → Int
  | [] => 0
  | r :: rs => if r = 0 then firstNonZero rs else r

/-- `Compare`: -1 / 0 / +1 three-way comparison. -/
def Compare (s other : SemVer) : Int :=
  firstNonZero (generateCompareToOtherResult s other)

/-- `IsGraterOrEquql`: first non-zero result `> 0`, `true` when all zero. -/
def IsGraterOrEquql (s o : SemVer) : Bool :=
  firstNonZero (generateCompareToOtherResult s o) ≥ 0

/-- `IsGrater`: first non-zero result `> 0`, `false` when all zero. -/
def IsGrater (s o : SemVer) : Bool :=
  firstNonZero (generateCompareToOtherResult s o) > 0

/-- `IsLess`: first non-zero result `< 0`, `false` when all zero. -/
def IsLess (s o : SemVer) : Bool :=
  firstNonZero (generateCompareToOtherResult s o) < 0

/-- `IsLessOrEquql`: first non-zero result `< 0`, `true` when all zero. -/
def IsLessOrEquql (s o : SemVer) : Bool :=
  firstNonZero (generateCompareToOtherResult s o) ≤ 0

/-- `IsEquql`: field-wise equality of the numeric parts and the raw
`PreRelease` string; `BuildMetadata` is not consulted. -/
def IsEquql (s o : SemVer) : Bool :=
  s.Major = o.Major && s.Minor = o.Minor && s.Patch = o.Patch &&
    s.PreRelease = o.PreRelease

end SemVer

/-! ### The parser -/

/-- The scan state of `Parse`: the five accumulating `strings.Builder`
slots `parts[0..4]`, the field cursor `partIndex`, and the two one-shot
flags. -/
structure ScanState where
  p0 : List Char
  p1 : List Char
  p2 : List Char
  p3 : List Char
  p4 : List Char
  partIndex : Nat
  didEnterPreReleasePart : Bool
  didEnterBuildMetadataPart : Bool
deriving DecidableEq, Repr

/-- The initial scan state: empty builders, cursor 0, flags unset. -/
def initState : ScanState :=
  ⟨[], [], [], [], [], 0, false, false⟩

/-- `parts[partIndex].WriteRune(c)`.  Go indexes a five-element array; the
catch-all branch (which Go would reach only by an out-of-range panic) is
proved unreachable from `initState` in the safety theorem. -/
def writePart (st : ScanState) (c : Char) : ScanState :=
  match st.partIndex with
  | 0 => { st with p0 := st.p0 ++ [c] }
  | 1 => { st with p1 := st.p1 ++ [c] }
  | 2 => { st with p2 := st.p2 ++ [c] }
  | 3 => { st with p3 := st.p3 ++ [c] }
  | 4 => { st with p4 := st.p4 ++ [c] }
  | _ => st

/-- One iteration of the `for _, c := range semverStr` loop. -/
def scanStep (st : ScanState) (c : Char) : ScanState :=
  if c = '.' ∧ st.partIndex < 2 then
    { st with partIndex := st.partIndex + 1 }
  else if c = '-' ∧ st.didEnterPreReleasePart = false ∧
      st.didEnterBuildMetadataPart = false then
    { st with didEnterPreReleasePart := true, partIndex := 3 }
  else if c = '+' ∧ st.didEnterBuildMetadataPart = false then
    { st with didEnterBuildMetadataPart := true, partIndex := 4 }
  else
    writePart st c

/-- The whole scan loop over the input's runes. -/
def scanList (st : ScanState) (cs : List Char) : ScanState :=
  cs.foldl scanStep st

/-- `Parse`: scan, then convert the three numeric slots with `strconv.Atoi`,
failing with the syntax error on the first bad slot. -/
def Parse (semverStr : String) : Except Err SemVer :=
  let st := scanList initState semverStr.data
  match atoiL st.p0 with
  | none => .error .invalidSemVer
  | some major =>
    match atoiL st.p1 with
    | none => .error .invalidSemVer
    | some minor =>
      match atoiL st.p2 with
      | none => .error .invalidSemVer
      | some patch =>
        .ok ⟨major, minor, patch, String.mk st.p3, String.mk st.p4⟩

/-- `IsValid`: true iff `Parse` succeeds. -/
def IsValid (v : String) : Bool :=
  match Parse v with
  | .ok _ => true
  | .error _ => false

/-- Package-level `Compare` on two raw strings: parse both (propagating the
first error), then compare the values. -/
def CompareStrings (v1 v2 : String) : Except Err Int :=
  match Parse v1 with
  | .error e => .error e
  | .ok parsedV1 =>
    match Parse v2 with
    | .error e => .error e
    | .ok parsedV2 => .ok (parsedV1.Compare parsedV2)

/-! ### Rendering -/

/-- Decimal digit character for a value `0..9`. -/
def digitChar (n : Nat) : Char := Char.ofNat (n + 48)

/-- Fuel-driven most-significant-first decimal digits; the fuel only bounds
the recursion depth (one unit per digit), so any fuel above the digit count
yields the same list. -/
def natDigitsGo (fuel n : Nat) : List Char :=
  match fuel with
  | 0 => []
  | f + 1 =>
    if n < 10 then [digitChar n]
    else natDigitsGo f (n / 10) ++ [digitChar (n % 10)]

/-- Decimal digits of `n`, most significant first (`n + 1` is always enough
fuel). -/
def natDigits (n : Nat) : List Char := natDigitsGo (n + 1) n

/-- Go `fmt` rendering of an `int`: decimal digits, with a leading minus for
negative values. -/
def intToChars (i : Int) : List Char :=
  if i < 0 then '-' :: natDigits i.natAbs else natDigits i.toNat

namespace SemVer

/-- The `String()` method at the rune level:
`MAJOR.MINOR.PATCH[-PRERELEASE][+BUILD]`. -/
def render (s : SemVer) : List Char :=
  intToChars s.Major ++ '.' :: intToChars s.Minor ++ '.' :: intToChars s.Patch
    ++ (if byteLen s.PreRelease = 0 then [] else '-' :: s.PreRelease.data)
    ++ (if byteLen s.BuildMetadata = 0 then [] else '+' :: s.BuildMetadata.data)

/-- The `String()` method as a Go string. -/
def toString (s : SemVer) : String := String.mk s.render

end SemVer

/-! ### Sorting

`sort.Sort` runs an unspecified comparison sort over the interface whose
`Less(i, j)` is `sv[i].IsLessOrEquql(sv[j])`; it is modelled as insertion
sort over that same predicate (any comparison sort agrees with it whenever
the predicate is consistent, which the sorting claims' inputs are). -/

/-- Insert into a sorted prefix using the code's `Less` predicate. -/
def insertLe (x : SemVer) : List SemVer → List SemVer
  | [] => [x]
  | y :: ys => if x.IsLessOrEquql y then x :: y :: ys else y :: insertLe x ys

/-- `Sort` (the Go name is a Lean keyword): ascending order under the code's
comparator. -/
def SortVersions : List SemVer → List SemVer
  | [] => []
  | x :: xs => insertLe x (SortVersions xs)

/-- `SortStr`: parse every element (first error aborts), sort the parsed
values, then re-render each element. -/
def SortStr (slice : List String) : Except Err (List String) :=
  match slice.mapM Parse with
  | .error e => .error e
  | .ok m => .ok ((SortVersions m).map SemVer.toString)

/-! ### Statement-side apparatus (predicates the claims quantify with) -/

/-- All ways to insert `x` into a list. -/
def insertions {α : Type} (x : α) : List α → List (List α)
  | [] => [[x]]
  | y :: ys => (x :: y :: ys) :: (insertions x ys).map (fun zs => y :: zs)

/-- Every permutation of a list, by inserting the head everywhere into the
permutations of the tail (structural, so a witness can evaluate it). -/
def perms {α : Type} : List α → List (List α)
  | [] => [[]]
  | x :: xs => (perms xs).flatMap (insertions x)

/-- A numeric-field text that makes `strconv.Atoi` (and hence `Parse`) fail:
empty, containing a non-digit, or exceeding the 64-bit `int` range. -/
def badNumText (cs : List Char) : Prop :=
  cs = [] ∨ (¬ cs.all isDigit = true) ∨ maxGoInt < digitsVal cs

instance (cs : List Char) : Decidable (badNumText cs) := by
  unfold badNumText; infer_instance

/-- No sign character occurs in the text. -/
def noSigns (cs : List Char) : Prop :=
  ('-' ∉ cs) ∧ ('+' ∉ cs)

/-- Canonical decimal numeral: non-empty, all digits, and no leading zero
except for the numeral `0` itself. -/
def canonNum (cs : List Char) : Prop :=
  cs ≠ [] ∧ cs.all isDigit = true ∧ (cs.head? = some '0' → cs = ['0'])

instance (cs : List Char) : Decidable (canonNum cs) := by
  unfold canonNum; infer_instance

/-- A well-formed input of the claimed grammar, assembled from its pieces:
three numeric fields, then `-pre` when `pre` is non-empty, then `+build`
when `build` is non-empty. -/
def grammarStr (ma mi pa pre build : List Char) : List Char :=
  ma ++ ('.' :: (mi ++ ('.' :: (pa
    ++ ((if pre = [] then [] else '-' :: pre)
      ++ (if build = [] then [] else '+' :: build))))))

/-- The invariant the scan preserves: the cursor stays in the five slots,
each one-shot flag pins the cursor past the numeric fields, and no sign
character is ever accumulated into a numeric slot. -/
def ScanInv (st : ScanState) : Prop :=
  st.partIndex ≤ 4 ∧
  (st.didEnterBuildMetadataPart = true → st.partIndex = 4) ∧
  (st.didEnterPreReleasePart = true → 3 ≤ st.partIndex) ∧
  (st.didEnterPreReleasePart = false ∧ st.didEnterBuildMetadataPart = false →
    st.partIndex ≤ 2) ∧
  noSigns st.p0 ∧ noSigns st.p1 ∧ noSigns st.p2

/-- The spec's sort scenario, as raw strings. -/
def scenarioStrs : List String :=
  ["1.0.0-alpha", "1.0.0-alpha.1", "1.0.0-beta", "1.0.0-beta.11",
   "1.0.0", "2.0.0"]

/-- The spec's sort scenario, as parsed Versions. -/
def scenarioVers : List SemVer :=
  [⟨1, 0, 0, "alpha", ""⟩, ⟨1, 0, 0, "alpha.1", ""⟩, ⟨1, 0, 0, "beta", ""⟩,
   ⟨1, 0, 0, "beta.11", ""⟩, ⟨1, 0, 0, "", ""⟩, ⟨2, 0, 0, "", ""⟩]

/-- The spec's full precedence chain. -/
def chainStrs : List String :=
  ["1.0.0-alpha", "1.0.0-alpha.1", "1.0.0-alpha.beta", "1.0.0-beta",
   "1.0.0-beta.2", "1.0.0-beta.11", "1.0.0-rc.1", "1.0.0"]

/-- Both strings parse, the first is `IsLess` the second, and the second is
`IsGrater` the first. -/
def strictlyBelow (a b : String) : Bool :=
  match Parse a, Parse b with
  | .ok va, .ok vb => va.IsLess vb && vb.IsGrater va
  | _, _ => false

end semver

deriving instance DecidableEq for Except




open semver

/-! ## Theorems about the claims -/

/-- C1: in `comparePreRelease` the final tie-break compares the *byte
lengths* of the two `PreRelease` strings, not the identifier counts the
code's own rule 4 states.  At `PreRelease = "1.2"` versus `"0001"` both
strings are non-empty, every compared position is equal at the identifier
level (`1 = 1` numerically) and the first list has more identifiers (2
versus 1), so the claim requires GREATER (+1); the code returns -1. -/
theorem C1_comparePreRelease_length_bug :
    byteLen ("1.2" : String) ≠ 0 ∧ byteLen ("0001" : String) ≠ 0 ∧
    cmpIdentLoop (splitDots ("1.2" : String).data)
      (splitDots ("0001" : String).data) = none ∧
    (splitDots ("1.2" : String).data).length = 2 ∧
    (splitDots ("0001" : String).data).length = 1 ∧
    SemVer.comparePreRelease ⟨0, 0, 0, "1.2", ""⟩ ⟨0, 0, 0, "0001", ""⟩ = -1 := by
  decide

/-- C2: `Compare` is not transitive.  With pre-releases `"1.1"`, `"001"`,
`"1.0"` (equal numeric triples) the code yields `Compare b c = 0` and
`Compare c a = 0` — both LESS-or-EQUAL — yet `Compare b a = 1`, because the
byte-length tie-break equates `"001"` with both `"1.1"` and `"1.0"`. -/
theorem C2_compare_not_transitive :
    SemVer.Compare ⟨0, 0, 0, "1.1", ""⟩ ⟨0, 0, 0, "001", ""⟩ = 0 ∧
    SemVer.Compare ⟨0, 0, 0, "001", ""⟩ ⟨0, 0, 0, "1.0", ""⟩ = 0 ∧
    SemVer.Compare ⟨0, 0, 0, "1.1", ""⟩ ⟨0, 0, 0, "1.0", ""⟩ = 1 := by
  decide

/-- C3 (counterexample): a 19-digit all-digit major field exceeds Go's
64-bit `int`, so `Parse` rejects it even though the claim requires success
for digit fields of any length. -/
theorem C3_cex_19_digit_major_rejected :
    (scanList initState ("9999999999999999999.0.0" : String).data).p0 ≠ [] ∧
    (scanList initState
      ("9999999999999999999.0.0" : String).data).p0.all isDigit = true ∧
    Parse "9999999999999999999.0.0" = .error .invalidSemVer := by
  decide

/-- C4 (counterexample): `"01.2.3"` is built from the claimed grammar
(three dot-separated digit fields), parses successfully, but re-renders as
`"1.2.3"`, so the round-trip is not byte-identical. -/
theorem C4_cex_leading_zero_not_roundtripped :
    Parse "01.2.3" = .ok ⟨1, 2, 3, "", ""⟩ ∧
    (Parse "01.2.3").map SemVer.toString = .ok "1.2.3" ∧
    ("1.2.3" : String) ≠ "01.2.3" := by
  decide

/-- C5 (counterexample): on `"1.99999999999999999999.0"` all three
accumulated numeric texts are non-empty and all-digit, yet `Parse` fails
(the minor field overflows the 64-bit `int` range), so "empty or contains a
non-digit" does not exhaust the failure cases. -/
theorem C5_cex_overflow_is_a_third_failure_case :
    (scanList initState ("1.99999999999999999999.0" : String).data).p0 ≠ [] ∧
    (scanList initState
      ("1.99999999999999999999.0" : String).data).p0.all isDigit = true ∧
    (scanList initState ("1.99999999999999999999.0" : String).data).p1 ≠ [] ∧
    (scanList initState
      ("1.99999999999999999999.0" : String).data).p1.all isDigit = true ∧
    (scanList initState ("1.99999999999999999999.0" : String).data).p2 ≠ [] ∧
    (scanList initState
      ("1.99999999999999999999.0" : String).data).p2.all isDigit = true ∧
    Parse "1.99999999999999999999.0" = .error .invalidSemVer ∧
    IsValid "1.99999999999999999999.0" = false := by
  decide

/-- C8: the full precedence chain
`1.0.0-alpha < 1.0.0-alpha.1 < 1.0.0-alpha.beta < 1.0.0-beta <
1.0.0-beta.2 < 1.0.0-beta.11 < 1.0.0-rc.1 < 1.0.0` holds pairwise: for
every `i < j` both strings parse, `IsLess` holds forwards and `IsGrater`
backwards. -/
theorem C8_full_precedence_chain :
    List.Pairwise (fun a b => strictlyBelow a b = true) chainStrs := by
  decide

/-- C6: build metadata never influences comparison or the equality
predicate — replacing both operands' `BuildMetadata` fields by arbitrary
strings changes neither `Compare` nor `IsEquql` — and in particular
`1.2.3+a` and `1.2.3+b` compare EQUAL. -/
theorem C6_build_metadata_noninterference :
    (∀ (a b : SemVer) (m1 m2 : String),
      SemVer.Compare { a with BuildMetadata := m1 }
          { b with BuildMetadata := m2 } = SemVer.Compare a b ∧
      SemVer.IsEquql { a with BuildMetadata := m1 }
          { b with BuildMetadata := m2 } = SemVer.IsEquql a b) ∧
    CompareStrings "1.2.3+a" "1.2.3+b" = .ok 0 := by
  refine ⟨fun a b m1 m2 => ?_, by decide⟩
  cases a; cases b; exact ⟨rfl, rfl⟩

/-! ### Lemmas about the scan -/

theorem scanList_append (st : ScanState) (xs ys : List Char) :
    scanList st (xs ++ ys) = scanList (scanList st xs) ys :=
  List.foldl_append ..

theorem scanList_cons (st : ScanState) (c : Char) (cs : List Char) :
    scanList st (c :: cs) = scanList (scanStep st c) cs := rfl

theorem noSigns_append (cs : List Char) (c : Char) (h : noSigns cs)
    (h1 : c ≠ '-') (h2 : c ≠ '+') : noSigns (cs ++ [c]) := by
  obtain ⟨hm, hp⟩ := h
  refine ⟨?_, ?_⟩ <;> intro hmem <;> rcases List.mem_append.1 hmem with h' | h'
  · exact hm h'
  · simp at h'; exact h1 h'.symm
  · exact hp h'
  · simp at h'; exact h2 h'.symm

theorem scanInv_step (st : ScanState) (c : Char) (h : ScanInv st) :
    ScanInv (scanStep st c) := by
  obtain ⟨h1, h2, h3, h4, h5, h6, h7⟩ := h
  unfold scanStep
  split
  · next hc =>
    refine ⟨by dsimp only; omega, ?_, ?_, ?_, h5, h6, h7⟩
    · intro hbm; have := h2 hbm; dsimp only; omega
    · intro hpre; have := h3 hpre; dsimp only; omega
    · intro hf; have := h4 hf; dsimp only; omega
  · split
    · next hnotdot hc =>
      exact ⟨by dsimp only; omega, by simp [hc.2.2], by simp, by simp, h5, h6, h7⟩
    · split
      · next hnotdot hnotdash hc =>
        exact ⟨by dsimp only; omega, by simp, by intro _; dsimp only; omega,
          by simp, h5, h6, h7⟩
      · next hnotdot hnotdash hnotplus =>
        have hcm : c = '-' → st.partIndex ≥ 3 := by
          intro hc; subst hc
          rcases Decidable.not_and_iff_or_not.1 hnotdash with h' | h'
          · exact absurd rfl h'
          · rcases Decidable.not_and_iff_or_not.1 h' with h'' | h''
            · exact h3 (by revert h''; cases st.didEnterPreReleasePart <;> simp)
            · have := h2 (by revert h''; cases st.didEnterBuildMetadataPart <;> simp)
              omega
        have hcp : c = '+' → st.partIndex = 4 := by
          intro hc; subst hc
          rcases Decidable.not_and_iff_or_not.1 hnotplus with h' | h'
          · exact absurd rfl h'
          · exact h2 (by revert h'; cases st.didEnterBuildMetadataPart <;> simp)
        unfold writePart
        split
        · next hpi =>
          refine ⟨h1, h2, h3, h4, ?_, h6, h7⟩
          exact noSigns_append _ _ h5 (fun hc => by have := hcm hc; omega)
            (fun hc => by have := hcp hc; omega)
        · next hpi =>
          refine ⟨h1, h2, h3, h4, h5, ?_, h7⟩
          exact noSigns_append _ _ h6 (fun hc => by have := hcm hc; omega)
            (fun hc => by have := hcp hc; omega)
        · next hpi =>
          refine ⟨h1, h2, h3, h4, h5, h6, ?_⟩
          exact noSigns_append _ _ h7 (fun hc => by have := hcm hc; omega)
            (fun hc => by have := hcp hc; omega)
        · exact ⟨h1, h2, h3, h4, h5, h6, h7⟩
        · exact ⟨h1, h2, h3, h4, h5, h6, h7⟩
        · exact ⟨h1, h2, h3, h4, h5, h6, h7⟩

theorem scanInv_list (cs : List Char) :
    ∀ st : ScanState, ScanInv st → ScanInv (scanList st cs) := by
  induction cs with
  | nil => intro st h; exact h
  | cons c cs ih =>
    intro st h
    rw [scanList_cons]
    exact ih _ (scanInv_step st c h)

theorem scanInv_initState : ScanInv initState := by
  refine ⟨by simp [initState], by simp [initState], by simp [initState],
    by simp [initState], ?_, ?_, ?_⟩ <;>
    exact ⟨by simp [initState], by simp [initState]⟩

theorem scanInv_of_init (cs : List Char) : ScanInv (scanList initState cs) :=
  scanInv_list cs initState scanInv_initState


/-! ### Lemmas about `strconv.Atoi` -/


theorem isDigit_ne_plus (c : Char) (h : isDigit c = true) : c ≠ '+' := by
  intro hc; subst hc; revert h; decide

theorem isDigit_ne_minus (c : Char) (h : isDigit c = true) : c ≠ '-' := by
  intro hc; subst hc; revert h; decide

theorem atoiL_digits (cs : List Char) (h1 : cs ≠ [])
    (h2 : cs.all isDigit = true) (h3 : digitsVal cs ≤ maxGoInt) :
    atoiL cs = some ((digitsVal cs : Nat) : Int) := by
  match cs with
  | [] => exact absurd rfl h1
  | c :: rest =>
    have hc : isDigit c = true := by
      have := List.all_eq_true.1 h2 c (by simp)
      simpa using this
    rw [atoiL]
    simp only [if_neg (isDigit_ne_plus c hc), if_neg (isDigit_ne_minus c hc)]
    simp [h2, h3]

theorem atoiL_none_iff (cs : List Char) (hns : noSigns cs) :
    atoiL cs = none ↔ badNumText cs := by
  match cs with
  | [] => simp [atoiL, badNumText]
  | c :: rest =>
    have hplus : c ≠ '+' := fun hc => hns.2 (hc ▸ List.mem_cons_self c rest)
    have hminus : c ≠ '-' := fun hc => hns.1 (hc ▸ List.mem_cons_self c rest)
    rw [atoiL]
    simp only [if_neg hplus, if_neg hminus]
    by_cases hall : (c :: rest).all isDigit = true
    · simp only [hall, List.isEmpty_cons, Bool.not_true, Bool.false_eq_true,
        if_false]
      rw [badNumText]
      constructor
      · intro h
        split at h
        · simp at h
        · next hgt => right; right; omega
      · intro h
        rcases h with h | h | h
        · exact absurd h (by simp)
        · exact absurd hall h
        · rw [if_neg (by omega)]
    · simp only [List.isEmpty_cons, Bool.false_eq_true, if_false]
      rw [if_pos (by simp [hall]), badNumText]
      simp [hall]

theorem atoiL_nonneg (cs : List Char) (hm : '-' ∉ cs) (x : Int)
    (h : atoiL cs = some x) : 0 ≤ x := by
  match cs with
  | [] => simp [atoiL] at h
  | c :: rest =>
    have hminus : c ≠ '-' := fun hc => hm (hc ▸ List.mem_cons_self c rest)
    rw [atoiL] at h
    by_cases hplus : c = '+' <;>
      simp only [hplus, if_pos, if_neg hminus, if_neg] at h <;>
      repeat' split at h
    all_goals try simp at h
    all_goals try (exfalso; simp_all; done)
    all_goals omega

theorem C9_parse_fields_nonneg :
    ∀ (s : String) (v : SemVer), Parse s = .ok v →
      0 ≤ v.Major ∧ 0 ≤ v.Minor ∧ 0 ≤ v.Patch := by
  intro s v h
  obtain ⟨-, -, -, -, h5, h6, h7⟩ := scanInv_of_init s.data
  unfold Parse at h
  dsimp only at h
  rcases h0 : atoiL (scanList initState s.data).p0 with _ | major
  · rw [h0] at h; exact absurd h (by simp)
  rw [h0] at h; dsimp only at h
  rcases h1 : atoiL (scanList initState s.data).p1 with _ | minor
  · rw [h1] at h; exact absurd h (by simp)
  rw [h1] at h; dsimp only at h
  rcases h2 : atoiL (scanList initState s.data).p2 with _ | patch
  · rw [h2] at h; exact absurd h (by simp)
  rw [h2] at h; dsimp only at h
  obtain rfl := Except.ok.inj h
  exact ⟨atoiL_nonneg _ h5.1 _ h0, atoiL_nonneg _ h6.1 _ h1,
    atoiL_nonneg _ h7.1 _ h2⟩

theorem C10_scan_in_bounds_parse_total :
    (∀ cs : List Char, (scanList initState cs).partIndex < 5) ∧
    ∀ s : String, Parse s = .error .invalidSemVer ∨ ∃ v, Parse s = .ok v := by
  constructor
  · intro cs
    have h := (scanInv_of_init cs).1
    omega
  · intro s
    unfold Parse
    dsimp only
    rcases h0 : atoiL (scanList initState s.data).p0 with _ | major
    · exact Or.inl rfl
    dsimp only
    rcases h1 : atoiL (scanList initState s.data).p1 with _ | minor
    · exact Or.inl rfl
    dsimp only
    rcases h2 : atoiL (scanList initState s.data).p2 with _ | patch
    · exact Or.inl rfl
    exact Or.inr ⟨_, rfl⟩

theorem C5_amended_error_iff :
    (∀ s : String,
      Parse s = .error .invalidSemVer ↔
        (badNumText (scanList initState s.data).p0 ∨
         badNumText (scanList initState s.data).p1 ∨
         badNumText (scanList initState s.data).p2)) ∧
    Parse "1..0" = .error .invalidSemVer ∧ IsValid "1..0" = false ∧
    Parse "1.0" = .error .invalidSemVer ∧ IsValid "1.0" = false ∧
    Parse "1.0-b" = .error .invalidSemVer ∧ IsValid "1.0-b" = false ∧
    Parse "1b.0.0" = .error .invalidSemVer ∧ IsValid "1b.0.0" = false := by
  refine ⟨fun s => ?_, by decide, by decide, by decide, by decide, by decide,
    by decide, by decide, by decide⟩
  obtain ⟨-, -, -, -, h5, h6, h7⟩ := scanInv_of_init s.data
  rw [← atoiL_none_iff _ h5, ← atoiL_none_iff _ h6, ← atoiL_none_iff _ h7]
  unfold Parse
  dsimp only
  rcases h0 : atoiL (scanList initState s.data).p0 with _ | major
  · simp
  dsimp only
  rcases h1 : atoiL (scanList initState s.data).p1 with _ | minor
  · simp
  dsimp only
  rcases h2 : atoiL (scanList initState s.data).p2 with _ | patch
  · simp
  simp

theorem C3_amended_large_numeric_fields :
    ∀ (s : String) (st : ScanState), scanList initState s.data = st →
      st.p0 ≠ [] → st.p0.all isDigit = true → digitsVal st.p0 ≤ maxGoInt →
      st.p1 ≠ [] → st.p1.all isDigit = true → digitsVal st.p1 ≤ maxGoInt →
      st.p2 ≠ [] → st.p2.all isDigit = true → digitsVal st.p2 ≤ maxGoInt →
      Parse s = .ok ⟨(digitsVal st.p0 : Nat), (digitsVal st.p1 : Nat),
        (digitsVal st.p2 : Nat), String.mk st.p3, String.mk st.p4⟩ := by
  intro s st hst h01 h02 h03 h11 h12 h13 h21 h22 h23
  unfold Parse
  dsimp only
  rw [hst, atoiL_digits _ h01 h02 h03, atoiL_digits _ h11 h12 h13,
    atoiL_digits _ h21 h22 h23]

theorem C3_witness :
    Parse "12345678901234567.2.3" =
      .ok ⟨12345678901234567, 2, 3, "", ""⟩ := by
  have h := C3_amended_large_numeric_fields "12345678901234567.2.3" _ rfl
    (by decide) (by decide) (by decide) (by decide) (by decide) (by decide)
    (by decide) (by decide) (by decide)
  exact h

theorem C9_witness :
    0 ≤ (SemVer.mk 1 2 3 "" "").Major ∧
    0 ≤ (SemVer.mk 1 2 3 "" "").Minor ∧
    0 ≤ (SemVer.mk 1 2 3 "" "").Patch :=
  C9_parse_fields_nonneg "1.2.3" ⟨1, 2, 3, "", ""⟩ (by decide)

/-! ### The sort scenario (C7) -/
theorem self_cons_mem_insertions {α : Type} (x : α) (l : List α) :
    x :: l ∈ insertions x l := by
  cases l <;> simp [insertions]

theorem mem_insertions_of_mem {α : Type} [DecidableEq α] (x : α) :
    ∀ p : List α, x ∈ p → p ∈ insertions x (p.erase x) := by
  intro p
  induction p with
  | nil => intro h; cases h
  | cons y ys ih =>
    intro hmem
    by_cases hxy : x = y
    · subst hxy
      rw [List.erase_cons_head]
      exact self_cons_mem_insertions x ys
    · have hx : x ∈ ys := by
        rcases List.mem_cons.1 hmem with h | h
        · exact absurd h hxy
        · exact h
      rw [List.erase_cons_tail (by simpa using fun h => hxy h.symm)]
      unfold insertions
      exact List.mem_cons.2 (Or.inr (List.mem_map.2 ⟨ys, ih hx, rfl⟩))

theorem mem_perms_of_perm {α : Type} [DecidableEq α] :
    ∀ l p : List α, p.Perm l → p ∈ perms l := by
  intro l
  induction l with
  | nil =>
    intro p h
    rw [List.perm_nil.1 h]
    simp [perms]
  | cons x xs ih =>
    intro p h
    have hx : x ∈ p := h.symm.subset (List.mem_cons_self x xs)
    have herase : (p.erase x).Perm xs := by
      have h2 := List.Perm.erase x h
      rwa [List.erase_cons_head] at h2
    unfold perms
    exact List.mem_flatMap.2 ⟨p.erase x, ih _ herase,
      mem_insertions_of_mem x p hx⟩

set_option maxRecDepth 40000 in
theorem sortScenarioVers_all :
    ((perms scenarioVers).all fun p =>
      decide (SortVersions p = scenarioVers)) = true := by
  decide

set_option maxRecDepth 40000 in
theorem sortScenarioStrs_all :
    ((perms scenarioStrs).all fun q =>
      decide (SortStr q = .ok scenarioStrs)) = true := by
  decide

theorem C7_sort_scenario :
    ∀ (p : List SemVer) (q : List String),
      p.Perm scenarioVers → q.Perm scenarioStrs →
      SortVersions p = scenarioVers ∧ SortStr q = .ok scenarioStrs := by
  intro p q hp hq
  constructor
  · exact of_decide_eq_true
      (List.all_eq_true.1 sortScenarioVers_all p (mem_perms_of_perm _ p hp))
  · exact of_decide_eq_true
      (List.all_eq_true.1 sortScenarioStrs_all q (mem_perms_of_perm _ q hq))

theorem C7_witness :
    SortVersions scenarioVers.reverse = scenarioVers ∧
    SortStr scenarioStrs.reverse = .ok scenarioStrs :=
  C7_sort_scenario scenarioVers.reverse scenarioStrs.reverse
    (by decide) (by decide)

/-! ### Decimal rendering round-trips on canonical numerals -/

theorem isDigit_iff (c : Char) :
    isDigit c = true ↔ 48 ≤ c.toNat ∧ c.toNat ≤ 57 := by
  simp [isDigit]

theorem digitChar_digitVal (c : Char) (h : isDigit c = true) :
    digitChar (digitVal c) = c := by
  obtain ⟨h1, h2⟩ := (isDigit_iff c).1 h
  rw [digitChar, digitVal, Nat.sub_add_cancel h1, Char.ofNat_toNat]

theorem natDigitsGo_congr :
    ∀ n f g : Nat, n < f → n < g → natDigitsGo f n = natDigitsGo g n := by
  intro n
  induction n using Nat.strong_induction_on with
  | _ n ih =>
    intro f g hf hg
    match f, g with
    | f' + 1, g' + 1 =>
      rw [natDigitsGo, natDigitsGo]
      by_cases h10 : n < 10
      · rw [if_pos h10, if_pos h10]
      · rw [if_neg h10, if_neg h10]
        have hdiv : n / 10 < n := Nat.div_lt_self (by omega) (by omega)
        rw [ih (n / 10) hdiv f' g' (by omega) (by omega)]

theorem natDigits_eq (n : Nat) :
    natDigits n =
      if n < 10 then [digitChar n]
      else natDigits (n / 10) ++ [digitChar (n % 10)] := by
  rw [natDigits, natDigitsGo]
  by_cases h10 : n < 10
  · rw [if_pos h10, if_pos h10]
  · rw [if_neg h10, if_neg h10, natDigits]
    have hdiv : n / 10 < n := Nat.div_lt_self (by omega) (by omega)
    rw [natDigitsGo_congr (n / 10) n (n / 10 + 1) (by omega) (by omega)]

theorem digitsVal_append_singleton (ds : List Char) (d : Char) :
    digitsVal (ds ++ [d]) = 10 * digitsVal ds + digitVal d := by
  simp [digitsVal, List.foldl_append]

theorem le_foldl_digits :
    ∀ (cs : List Char) (a : Nat),
      a ≤ cs.foldl (fun x c => 10 * x + digitVal c) a := by
  intro cs
  induction cs with
  | nil => intro a; exact Nat.le_refl a
  | cons c rest ih =>
    intro a
    calc a ≤ 10 * a + digitVal c := by omega
    _ ≤ _ := ih _

theorem digitsVal_pos (c : Char) (rest : List Char) (h1 : isDigit c = true)
    (h2 : c ≠ '0') : 1 ≤ digitsVal (c :: rest) := by
  have hv : 1 ≤ digitVal c := by
    obtain ⟨ha, hb⟩ := (isDigit_iff c).1 h1
    have : c.toNat ≠ 48 := by
      intro hc
      exact h2 (by rw [← Char.ofNat_toNat c, hc])
    rw [digitVal]; omega
  calc 1 ≤ digitVal c := hv
  _ = 10 * 0 + digitVal c := by omega
  _ ≤ digitsVal (c :: rest) := le_foldl_digits rest _

theorem natDigits_digitsVal : ∀ cs : List Char, canonNum cs →
    natDigits (digitsVal cs) = cs := by
  intro cs
  induction cs using List.reverseRecOn with
  | nil => intro h; exact absurd rfl h.1
  | append_singleton ds d ih =>
    intro h
    obtain ⟨-, hall, hlead⟩ := h
    have hd : isDigit d = true := by
      have := List.all_eq_true.1 hall d (by simp)
      simpa using this
    have hd9 : digitVal d ≤ 9 := by
      obtain ⟨ha, hb⟩ := (isDigit_iff d).1 hd
      rw [digitVal]; omega
    rcases eq_or_ne ds [] with hds | hds
    · subst hds
      have hv : digitsVal [d] = digitVal d := by simp [digitsVal]
      rw [List.nil_append, hv, natDigits_eq, if_pos (by omega),
        digitChar_digitVal d hd]
    · obtain ⟨e, ds', rfl⟩ := List.exists_cons_of_ne_nil hds
      have hhe : isDigit e = true := by
        have := List.all_eq_true.1 hall e (by simp)
        simpa using this
      have he0 : e ≠ '0' := by
        intro he
        subst he
        have : ((('0' :: ds') ++ [d]).head? = some '0') := by simp
        have hlen := congrArg List.length (hlead this)
        simp at hlen
      have hallpre : (e :: ds').all isDigit = true := by
        rw [List.all_append, Bool.and_eq_true] at hall
        exact hall.1
      have hcanon' : canonNum (e :: ds') := by
        refine ⟨by simp, hallpre, fun hh => ?_⟩
        exact absurd (Option.some.inj (by simpa using hh)) he0
      have hv1 : 1 ≤ digitsVal (e :: ds') := digitsVal_pos e ds' hhe he0
      rw [digitsVal_append_singleton, natDigits_eq, if_neg (by omega)]
      have hdiv : (10 * digitsVal (e :: ds') + digitVal d) / 10 =
          digitsVal (e :: ds') := by omega
      have hmod : (10 * digitsVal (e :: ds') + digitVal d) % 10 =
          digitVal d := by omega
      rw [hdiv, hmod, ih hcanon', digitChar_digitVal d hd]

/-! ### Scanning well-formed grammar segments -/

theorem isDigit_ne_dot (c : Char) (h : isDigit c = true) : c ≠ '.' := by
  intro hc; subst hc; revert h; decide

theorem scanStep_eq_write (st : ScanState) (c : Char)
    (h1 : ¬(c = '.' ∧ st.partIndex < 2))
    (h2 : ¬(c = '-' ∧ st.didEnterPreReleasePart = false ∧
      st.didEnterBuildMetadataPart = false))
    (h3 : ¬(c = '+' ∧ st.didEnterBuildMetadataPart = false)) :
    scanStep st c = writePart st c := by
  rw [scanStep, if_neg h1, if_neg h2, if_neg h3]

theorem writePart_p0 (st : ScanState) (c : Char) (h : st.partIndex = 0) :
    writePart st c = { st with p0 := st.p0 ++ [c] } := by
  cases st with
  | mk p0 p1 p2 p3 p4 pi f1 f2 => dsimp only at h; subst h; rfl

theorem writePart_p1 (st : ScanState) (c : Char) (h : st.partIndex = 1) :
    writePart st c = { st with p1 := st.p1 ++ [c] } := by
  cases st with
  | mk p0 p1 p2 p3 p4 pi f1 f2 => dsimp only at h; subst h; rfl

theorem writePart_p2 (st : ScanState) (c : Char) (h : st.partIndex = 2) :
    writePart st c = { st with p2 := st.p2 ++ [c] } := by
  cases st with
  | mk p0 p1 p2 p3 p4 pi f1 f2 => dsimp only at h; subst h; rfl

theorem writePart_p3 (st : ScanState) (c : Char) (h : st.partIndex = 3) :
    writePart st c = { st with p3 := st.p3 ++ [c] } := by
  cases st with
  | mk p0 p1 p2 p3 p4 pi f1 f2 => dsimp only at h; subst h; rfl

theorem writePart_p4 (st : ScanState) (c : Char) (h : st.partIndex = 4) :
    writePart st c = { st with p4 := st.p4 ++ [c] } := by
  cases st with
  | mk p0 p1 p2 p3 p4 pi f1 f2 => dsimp only at h; subst h; rfl

theorem scan_digits0 :
    ∀ (cs : List Char) (st : ScanState), st.partIndex = 0 →
      st.didEnterPreReleasePart = false →
      st.didEnterBuildMetadataPart = false → cs.all isDigit = true →
      scanList st cs = { st with p0 := st.p0 ++ cs } := by
  intro cs
  induction cs with
  | nil => intro st h1 h2 h3 h4; simp [scanList]
  | cons c rest ih =>
    intro st h1 h2 h3 h4
    rw [List.all_cons, Bool.and_eq_true] at h4
    obtain ⟨hc, hrest⟩ := h4
    rw [scanList_cons,
      scanStep_eq_write st c (fun hx => isDigit_ne_dot c hc hx.1)
        (fun hx => isDigit_ne_minus c hc hx.1)
        (fun hx => isDigit_ne_plus c hc hx.1),
      writePart_p0 st c h1,
      ih { st with p0 := st.p0 ++ [c] } h1 h2 h3 hrest]
    simp

theorem scan_digits1 :
    ∀ (cs : List Char) (st : ScanState), st.partIndex = 1 →
      st.didEnterPreReleasePart = false →
      st.didEnterBuildMetadataPart = false → cs.all isDigit = true →
      scanList st cs = { st with p1 := st.p1 ++ cs } := by
  intro cs
  induction cs with
  | nil => intro st h1 h2 h3 h4; simp [scanList]
  | cons c rest ih =>
    intro st h1 h2 h3 h4
    rw [List.all_cons, Bool.and_eq_true] at h4
    obtain ⟨hc, hrest⟩ := h4
    rw [scanList_cons,
      scanStep_eq_write st c (fun hx => isDigit_ne_dot c hc hx.1)
        (fun hx => isDigit_ne_minus c hc hx.1)
        (fun hx => isDigit_ne_plus c hc hx.1),
      writePart_p1 st c h1,
      ih { st with p1 := st.p1 ++ [c] } h1 h2 h3 hrest]
    simp

theorem scan_digits2 :
    ∀ (cs : List Char) (st : ScanState), st.partIndex = 2 →
      st.didEnterPreReleasePart = false →
      st.didEnterBuildMetadataPart = false → cs.all isDigit = true →
      scanList st cs = { st with p2 := st.p2 ++ cs } := by
  intro cs
  induction cs with
  | nil => intro st h1 h2 h3 h4; simp [scanList]
  | cons c rest ih =>
    intro st h1 h2 h3 h4
    rw [List.all_cons, Bool.and_eq_true] at h4
    obtain ⟨hc, hrest⟩ := h4
    rw [scanList_cons,
      scanStep_eq_write st c (fun hx => isDigit_ne_dot c hc hx.1)
        (fun hx => isDigit_ne_minus c hc hx.1)
        (fun hx => isDigit_ne_plus c hc hx.1),
      writePart_p2 st c h1,
      ih { st with p2 := st.p2 ++ [c] } h1 h2 h3 hrest]
    simp

theorem scan_pre :
    ∀ (cs : List Char) (st : ScanState), st.partIndex = 3 →
      st.didEnterPreReleasePart = true →
      st.didEnterBuildMetadataPart = false → '+' ∉ cs →
      scanList st cs = { st with p3 := st.p3 ++ cs } := by
  intro cs
  induction cs with
  | nil => intro st h1 h2 h3 h4; simp [scanList]
  | cons c rest ih =>
    intro st h1 h2 h3 h4
    rw [scanList_cons,
      scanStep_eq_write st c (fun hx => by rw [h1] at hx; omega)
        (fun hx => by rw [h2] at hx; simp at hx)
        (fun hx => h4 (hx.1 ▸ List.mem_cons_self c rest)),
      writePart_p3 st c h1,
      ih { st with p3 := st.p3 ++ [c] } h1 h2 h3
        (fun hm => h4 (List.mem_cons_of_mem c hm))]
    simp

theorem scan_build :
    ∀ (cs : List Char) (st : ScanState), st.partIndex = 4 →
      st.didEnterBuildMetadataPart = true →
      scanList st cs = { st with p4 := st.p4 ++ cs } := by
  intro cs
  induction cs with
  | nil => intro st h1 h2; simp [scanList]
  | cons c rest ih =>
    intro st h1 h2
    rw [scanList_cons,
      scanStep_eq_write st c (fun hx => by rw [h1] at hx; omega)
        (fun hx => by rw [h2] at hx; simp at hx)
        (fun hx => by rw [h2] at hx; simp at hx),
      writePart_p4 st c h1, ih { st with p4 := st.p4 ++ [c] } h1 h2]
    simp

theorem scanStep_dot (st : ScanState) (h : st.partIndex < 2) :
    scanStep st '.' = { st with partIndex := st.partIndex + 1 } := by
  rw [scanStep, if_pos ⟨rfl, h⟩]

theorem scanStep_dash (st : ScanState)
    (h1 : st.didEnterPreReleasePart = false)
    (h2 : st.didEnterBuildMetadataPart = false) :
    scanStep st '-' =
      { st with didEnterPreReleasePart := true, partIndex := 3 } := by
  rw [scanStep, if_neg (by simp), if_pos ⟨rfl, h1, h2⟩]

theorem scanStep_plus (st : ScanState)
    (h : st.didEnterBuildMetadataPart = false) :
    scanStep st '+' =
      { st with didEnterBuildMetadataPart := true, partIndex := 4 } := by
  rw [scanStep, if_neg (by simp), if_neg (by simp), if_pos ⟨rfl, h⟩]

theorem scan_to_patch (ma mi pa tail : List Char)
    (hma : ma.all isDigit = true) (hmi : mi.all isDigit = true)
    (hpa : pa.all isDigit = true) :
    scanList initState (ma ++ ('.' :: (mi ++ ('.' :: (pa ++ tail))))) =
      scanList (⟨ma, mi, pa, [], [], 2, false, false⟩ : ScanState) tail := by
  calc scanList initState (ma ++ ('.' :: (mi ++ ('.' :: (pa ++ tail)))))
      = scanList (⟨ma, [], [], [], [], 0, false, false⟩ : ScanState)
          ('.' :: (mi ++ ('.' :: (pa ++ tail)))) := by
        rw [scanList_append, scan_digits0 ma initState rfl rfl rfl hma]
        rfl
    _ = scanList (⟨ma, [], [], [], [], 1, false, false⟩ : ScanState)
          (mi ++ ('.' :: (pa ++ tail))) := by
        rw [scanList_cons,
          scanStep_dot ⟨ma, [], [], [], [], 0, false, false⟩ Nat.zero_lt_two]
    _ = scanList (⟨ma, mi, [], [], [], 1, false, false⟩ : ScanState)
          ('.' :: (pa ++ tail)) := by
        rw [scanList_append,
          scan_digits1 mi ⟨ma, [], [], [], [], 1, false, false⟩ rfl rfl rfl hmi]
        rfl
    _ = scanList (⟨ma, mi, [], [], [], 2, false, false⟩ : ScanState)
          (pa ++ tail) := by
        rw [scanList_cons,
          scanStep_dot ⟨ma, mi, [], [], [], 1, false, false⟩ Nat.one_lt_two]
    _ = scanList (⟨ma, mi, pa, [], [], 2, false, false⟩ : ScanState) tail := by
        rw [scanList_append,
          scan_digits2 pa ⟨ma, mi, [], [], [], 2, false, false⟩ rfl rfl rfl hpa]
        rfl

theorem grammar_scan_full (ma mi pa pre build : List Char)
    (hma : ma.all isDigit = true) (hmi : mi.all isDigit = true)
    (hpa : pa.all isDigit = true) (hpre : '+' ∉ pre) :
    ∃ pi f1 f2,
      scanList initState (grammarStr ma mi pa pre build) =
        ⟨ma, mi, pa, pre, build, pi, f1, f2⟩ := by
  rcases eq_or_ne pre [] with hp | hp <;> rcases eq_or_ne build [] with hb | hb
  · subst hp; subst hb
    refine ⟨2, false, false, ?_⟩
    rw [grammarStr, if_pos rfl, if_pos rfl,
      scan_to_patch ma mi pa _ hma hmi hpa]
    rfl
  · subst hp
    refine ⟨4, false, true, ?_⟩
    rw [grammarStr, if_pos rfl, if_neg hb,
      scan_to_patch ma mi pa _ hma hmi hpa]
    simp only [List.nil_append]
    rw [scanList_cons,
      scanStep_plus ⟨ma, mi, pa, [], [], 2, false, false⟩ rfl,
      scan_build build ⟨ma, mi, pa, [], [], 4, false, true⟩ rfl rfl]
    rfl
  · subst hb
    refine ⟨3, true, false, ?_⟩
    rw [grammarStr, if_neg hp, if_pos rfl,
      scan_to_patch ma mi pa _ hma hmi hpa]
    simp only [List.append_nil]
    rw [scanList_cons,
      scanStep_dash ⟨ma, mi, pa, [], [], 2, false, false⟩ rfl rfl,
      scan_pre pre ⟨ma, mi, pa, [], [], 3, true, false⟩ rfl rfl rfl hpre]
    rfl
  · refine ⟨4, true, true, ?_⟩
    rw [grammarStr, if_neg hp, if_neg hb,
      scan_to_patch ma mi pa _ hma hmi hpa, List.cons_append, scanList_cons,
      scanStep_dash ⟨ma, mi, pa, [], [], 2, false, false⟩ rfl rfl,
      scanList_append,
      scan_pre pre ⟨ma, mi, pa, [], [], 3, true, false⟩ rfl rfl rfl hpre,
      scanList_cons]
    show scanList
      (scanStep (⟨ma, mi, pa, pre, [], 3, true, false⟩ : ScanState) '+')
        build = _
    rw [scanStep_plus ⟨ma, mi, pa, pre, [], 3, true, false⟩ rfl,
      scan_build build ⟨ma, mi, pa, pre, [], 4, true, true⟩ rfl rfl]
    rfl

theorem intToChars_natCast (n : Nat) :
    intToChars ((n : Nat) : Int) = natDigits n := by
  rw [intToChars, if_neg (by omega), Int.toNat_natCast]

theorem runeUtf8Size_pos (c : Char) : 1 ≤ runeUtf8Size c := by
  rw [runeUtf8Size]
  split_ifs <;> omega

theorem byteLen_mk_eq_zero_iff (cs : List Char) :
    byteLen (String.mk cs) = 0 ↔ cs = [] := by
  cases cs with
  | nil => simp [byteLen]
  | cons c rest =>
    simp only [byteLen]
    constructor
    · intro h
      exfalso
      have h1 := runeUtf8Size_pos c
      simp [List.sum_cons] at h
      omega
    · intro h; cases h

theorem C4_amended_roundtrip :
    ∀ ma mi pa pre build : List Char,
      canonNum ma → digitsVal ma ≤ maxGoInt →
      canonNum mi → digitsVal mi ≤ maxGoInt →
      canonNum pa → digitsVal pa ≤ maxGoInt →
      '+' ∉ pre →
      Parse (String.mk (grammarStr ma mi pa pre build)) =
        .ok ⟨((digitsVal ma : Nat) : Int), ((digitsVal mi : Nat) : Int),
          ((digitsVal pa : Nat) : Int), String.mk pre, String.mk build⟩ ∧
      SemVer.toString ⟨((digitsVal ma : Nat) : Int), ((digitsVal mi : Nat) : Int),
        ((digitsVal pa : Nat) : Int), String.mk pre, String.mk build⟩ =
        String.mk (grammarStr ma mi pa pre build) := by
  intro ma mi pa pre build hma hma2 hmi hmi2 hpa hpa2 hpre
  obtain ⟨pi, f1, f2, hscan⟩ :=
    grammar_scan_full ma mi pa pre build hma.2.1 hmi.2.1 hpa.2.1 hpre
  constructor
  · unfold Parse
    dsimp only
    rw [hscan]
    dsimp only
    rw [atoiL_digits ma hma.1 hma.2.1 hma2,
      atoiL_digits mi hmi.1 hmi.2.1 hmi2,
      atoiL_digits pa hpa.1 hpa.2.1 hpa2]
  · rw [SemVer.toString, SemVer.render]
    dsimp only
    rw [intToChars_natCast, intToChars_natCast, intToChars_natCast,
      natDigits_digitsVal ma hma, natDigits_digitsVal mi hmi,
      natDigits_digitsVal pa hpa, grammarStr]
    rcases eq_or_ne pre [] with hp | hp <;>
      rcases eq_or_ne build [] with hb | hb
    · subst hp; subst hb
      rw [if_pos ((byteLen_mk_eq_zero_iff []).2 rfl),
        if_pos ((byteLen_mk_eq_zero_iff []).2 rfl)]
      simp
    · subst hp
      rw [if_pos ((byteLen_mk_eq_zero_iff []).2 rfl),
        if_neg (fun hh => hb ((byteLen_mk_eq_zero_iff build).1 hh)),
        if_pos rfl, if_neg hb]
      simp
    · subst hb
      rw [if_neg (fun hh => hp ((byteLen_mk_eq_zero_iff pre).1 hh)),
        if_pos ((byteLen_mk_eq_zero_iff []).2 rfl),
        if_neg hp, if_pos rfl]
      simp
    · rw [if_neg (fun hh => hp ((byteLen_mk_eq_zero_iff pre).1 hh)),
        if_neg (fun hh => hb ((byteLen_mk_eq_zero_iff build).1 hh)),
        if_neg hp, if_neg hb]
      simp

theorem C4_witness :
    Parse "10.2.3-rc.1+b-7" = .ok ⟨10, 2, 3, "rc.1", "b-7"⟩ ∧
    SemVer.toString ⟨10, 2, 3, "rc.1", "b-7"⟩ = "10.2.3-rc.1+b-7" := by
  have h := C4_amended_roundtrip ['1', '0'] ['2'] ['3'] ['r', 'c', '.', '1']
    ['b', '-', '7'] (by decide) (by decide) (by decide) (by decide)
    (by decide) (by decide) (by decide)
  exact h
